import Mathlib

/-!
Verification development for PySegmentKit (src/PySegmentKit/main.py).

The embedding models the three cores of the module:
 * the transliterator `yomi2voca` (rule cascade, post-processing, validation),
 * the grammar/dictionary encoder inside `PySegmentKit.segment`,
 * the alignment-log parsing loop inside `PySegmentKit.segment`.

Strings are modelled as `List Char` (Python `str` operates on code points).
Python float arithmetic is modelled exactly over `ℚ`.
Regex character classes `\d`, `[a-z]`, `[^ a-zA-Z:]` are modelled over their
ASCII ranges (Python would additionally accept non-ASCII Unicode digits in
`\d`; no claim depends on that).  `str.rstrip()` is modelled over the ASCII
whitespace characters.
-/

namespace PySegmentKit

set_option maxRecDepth 100000

/-- Python `str.replace(p, r)` scan with explicit fuel (one unit per scanned
character) so that the definition is structural and kernel-reducible.
At each position: if `p` (nonempty) matches, emit `r` and skip `|p|`
characters, otherwise emit the character and advance one.  This is the
leftmost, non-overlapping, replace-all semantics of `str.replace` and of
`re.sub` on a metacharacter-free pattern. -/
def replaceGo (p r : List Char) : List Char → Nat → List Char
  | s, 0 => s
  | [], _ + 1 => []
  | a :: t, fuel + 1 =>
    if 0 < p.length ∧ p.isPrefixOf (a :: t) then
      r ++ replaceGo p r (t.drop (p.length - 1)) fuel
    else
      a :: replaceGo p r t fuel

/-- Python `s.replace(p, r)` (all occurrences, leftmost, non-overlapping). -/
def replaceList (p r s : List Char) : List Char :=
  replaceGo p r s s.length

/-- Replace only the first occurrence of `p` by `r` (used to state what the
spec's words would compute, for comparison with the code's behaviour). -/
def replaceFirst (p r : List Char) : List Char → List Char
  | [] => []
  | a :: t =>
    if 0 < p.length ∧ p.isPrefixOf (a :: t) then
      r ++ (a :: t).drop p.length
    else
      a :: replaceFirst p r t

/-- `re.search` of a fixed literal: does `p` occur as a contiguous substring? -/
def containsSub (p : List Char) : List Char → Bool
  | [] => p.isPrefixOf []
  | a :: t => p.isPrefixOf (a :: t) || containsSub p t

/-- ASCII whitespace stripped by Python `str.rstrip()` (the Unicode
whitespace code points are irrelevant to every claim). -/
def pyIsSpace (c : Char) : Bool :=
  c == ' ' || c == '\t' || c == '\n' || c == '\r' || c == '\x0b' || c == '\x0c'

/-- Python `str.rstrip()`. -/
def pyRstrip (l : List Char) : List Char :=
  (l.reverse.dropWhile pyIsSpace).reverse

/-- The ordered rewrite-rule cascade of `PySegmentKit.yomi2voca`
(main.py lines 301-595), in source order, duplicates kept. -/
def rules : List (String × String) := [
  ("う゛ぁ", " b a"),
  ("う゛ぃ", " b i"),
  ("う゛ぇ", " b e"),
  ("う゛ぉ", " b o"),
  ("う゛ゅ", " by u"),
  ("ぅ゛", " b u"),
  ("あぁ", " a a"),
  ("いぃ", " i i"),
  ("いぇ", " i e"),
  ("いゃ", " y a"),
  ("うぅ", " u:"),
  ("えぇ", " e e"),
  ("おぉ", " o:"),
  ("かぁ", " k a:"),
  ("きぃ", " k i:"),
  ("くぅ", " k u:"),
  ("くゃ", " ky a"),
  ("くゅ", " ky u"),
  ("くょ", " ky o"),
  ("けぇ", " k e:"),
  ("こぉ", " k o:"),
  ("がぁ", " g a:"),
  ("ぎぃ", " g i:"),
  ("ぐぅ", " g u:"),
  ("ぐゃ", " gy a"),
  ("ぐゅ", " gy u"),
  ("ぐょ", " gy o"),
  ("げぇ", " g e:"),
  ("ごぉ", " g o:"),
  ("さぁ", " s a:"),
  ("しぃ", " sh i:"),
  ("すぅ", " s u:"),
  ("すゃ", " sh a"),
  ("すゅ", " sh u"),
  ("すょ", " sh o"),
  ("せぇ", " s e:"),
  ("そぉ", " s o:"),
  ("ざぁ", " z a:"),
  ("じぃ", " j i:"),
  ("ずぅ", " z u:"),
  ("ずゃ", " zy a"),
  ("ずゅ", " zy u"),
  ("ずょ", " zy o"),
  ("ぜぇ", " z e:"),
  ("ぞぉ", " z o:"),
  ("たぁ", " t a:"),
  ("ちぃ", " ch i:"),
  ("つぁ", " ts a"),
  ("つぃ", " ts i"),
  ("つぅ", " ts u:"),
  ("つゃ", " ch a"),
  ("つゅ", " ch u"),
  ("つょ", " ch o"),
  ("つぇ", " ts e"),
  ("つぉ", " ts o"),
  ("てぇ", " t e:"),
  ("とぉ", " t o:"),
  ("だぁ", " d a:"),
  ("ぢぃ", " j i:"),
  ("づぅ", " d u:"),
  ("づゃ", " zy a"),
  ("づゅ", " zy u"),
  ("づょ", " zy o"),
  ("でぇ", " d e:"),
  ("どぉ", " d o:"),
  ("なぁ", " n a:"),
  ("にぃ", " n i:"),
  ("ぬぅ", " n u:"),
  ("ぬゃ", " ny a"),
  ("ぬゅ", " ny u"),
  ("ぬょ", " ny o"),
  ("ねぇ", " n e:"),
  ("のぉ", " n o:"),
  ("はぁ", " h a:"),
  ("ひぃ", " h i:"),
  ("ふぅ", " f u:"),
  ("ふゃ", " hy a"),
  ("ふゅ", " hy u"),
  ("ふょ", " hy o"),
  ("へぇ", " h e:"),
  ("ほぉ", " h o:"),
  ("ばぁ", " b a:"),
  ("びぃ", " b i:"),
  ("ぶぅ", " b u:"),
  ("ふゃ", " hy a"),
  ("ぶゅ", " by u"),
  ("ふょ", " hy o"),
  ("べぇ", " b e:"),
  ("ぼぉ", " b o:"),
  ("ぱぁ", " p a:"),
  ("ぴぃ", " p i:"),
  ("ぷぅ", " p u:"),
  ("ぷゃ", " py a"),
  ("ぷゅ", " py u"),
  ("ぷょ", " py o"),
  ("ぺぇ", " p e:"),
  ("ぽぉ", " p o:"),
  ("まぁ", " m a:"),
  ("みぃ", " m i:"),
  ("むぅ", " m u:"),
  ("むゃ", " my a"),
  ("むゅ", " my u"),
  ("むょ", " my o"),
  ("めぇ", " m e:"),
  ("もぉ", " m o:"),
  ("やぁ", " y a:"),
  ("ゆぅ", " y u:"),
  ("ゆゃ", " y a:"),
  ("ゆゅ", " y u:"),
  ("ゆょ", " y o:"),
  ("よぉ", " y o:"),
  ("らぁ", " r a:"),
  ("りぃ", " r i:"),
  ("るぅ", " r u:"),
  ("るゃ", " ry a"),
  ("るゅ", " ry u"),
  ("るょ", " ry o"),
  ("れぇ", " r e:"),
  ("ろぉ", " r o:"),
  ("わぁ", " w a:"),
  ("をぉ", " o:"),
  ("う゛", " b u"),
  ("でぃ", " d i"),
  ("でぇ", " d e:"),
  ("でゃ", " dy a"),
  ("でゅ", " dy u"),
  ("でょ", " dy o"),
  ("てぃ", " t i"),
  ("てぇ", " t e:"),
  ("てゃ", " ty a"),
  ("てゅ", " ty u"),
  ("てょ", " ty o"),
  ("すぃ", " s i"),
  ("ずぁ", " z u a"),
  ("ずぃ", " z i"),
  ("ずぅ", " z u"),
  ("ずゃ", " zy a"),
  ("ずゅ", " zy u"),
  ("ずょ", " zy o"),
  ("ずぇ", " z e"),
  ("ずぉ", " z o"),
  ("きゃ", " ky a"),
  ("きゅ", " ky u"),
  ("きょ", " ky o"),
  ("しゃ", " sh a"),
  ("しゅ", " sh u"),
  ("しぇ", " sh e"),
  ("しょ", " sh o"),
  ("ちゃ", " ch a"),
  ("ちゅ", " ch u"),
  ("ちぇ", " ch e"),
  ("ちょ", " ch o"),
  ("とぅ", " t u"),
  ("とゃ", " ty a"),
  ("とゅ", " ty u"),
  ("とょ", " ty o"),
  ("どぁ", " d o a"),
  ("どぅ", " d u"),
  ("どゃ", " dy a"),
  ("どゅ", " dy u"),
  ("どょ", " dy o"),
  ("どぉ", " d o:"),
  ("にゃ", " ny a"),
  ("にゅ", " ny u"),
  ("にょ", " ny o"),
  ("ひゃ", " hy a"),
  ("ひゅ", " hy u"),
  ("ひょ", " hy o"),
  ("みゃ", " my a"),
  ("みゅ", " my u"),
  ("みょ", " my o"),
  ("りゃ", " ry a"),
  ("りゅ", " ry u"),
  ("りょ", " ry o"),
  ("ぎゃ", " gy a"),
  ("ぎゅ", " gy u"),
  ("ぎょ", " gy o"),
  ("ぢぇ", " j e"),
  ("ぢゃ", " j a"),
  ("ぢゅ", " j u"),
  ("ぢょ", " j o"),
  ("じぇ", " j e"),
  ("じゃ", " j a"),
  ("じゅ", " j u"),
  ("じょ", " j o"),
  ("びゃ", " by a"),
  ("びゅ", " by u"),
  ("びょ", " by o"),
  ("ぴゃ", " py a"),
  ("ぴゅ", " py u"),
  ("ぴょ", " py o"),
  ("うぁ", " u a"),
  ("うぃ", " w i"),
  ("うぇ", " w e"),
  ("うぉ", " w o"),
  ("ふぁ", " f a"),
  ("ふぃ", " f i"),
  ("ふぅ", " f u"),
  ("ふゃ", " hy a"),
  ("ふゅ", " hy u"),
  ("ふょ", " hy o"),
  ("ふぇ", " f e"),
  ("ふぉ", " f o"),
  ("あ", " a"),
  ("い", " i"),
  ("う", " u"),
  ("え", " e"),
  ("お", " o"),
  ("か", " k a"),
  ("き", " k i"),
  ("く", " k u"),
  ("け", " k e"),
  ("こ", " k o"),
  ("さ", " s a"),
  ("し", " sh i"),
  ("す", " s u"),
  ("せ", " s e"),
  ("そ", " s o"),
  ("た", " t a"),
  ("ち", " ch i"),
  ("つ", " ts u"),
  ("て", " t e"),
  ("と", " t o"),
  ("な", " n a"),
  ("に", " n i"),
  ("ぬ", " n u"),
  ("ね", " n e"),
  ("の", " n o"),
  ("は", " h a"),
  ("ひ", " h i"),
  ("ふ", " f u"),
  ("へ", " h e"),
  ("ほ", " h o"),
  ("ま", " m a"),
  ("み", " m i"),
  ("む", " m u"),
  ("め", " m e"),
  ("も", " m o"),
  ("ら", " r a"),
  ("り", " r i"),
  ("る", " r u"),
  ("れ", " r e"),
  ("ろ", " r o"),
  ("が", " g a"),
  ("ぎ", " g i"),
  ("ぐ", " g u"),
  ("げ", " g e"),
  ("ご", " g o"),
  ("ざ", " z a"),
  ("じ", " j i"),
  ("ず", " z u"),
  ("ぜ", " z e"),
  ("ぞ", " z o"),
  ("だ", " d a"),
  ("ぢ", " j i"),
  ("づ", " z u"),
  ("で", " d e"),
  ("ど", " d o"),
  ("ば", " b a"),
  ("び", " b i"),
  ("ぶ", " b u"),
  ("べ", " b e"),
  ("ぼ", " b o"),
  ("ぱ", " p a"),
  ("ぴ", " p i"),
  ("ぷ", " p u"),
  ("ぺ", " p e"),
  ("ぽ", " p o"),
  ("や", " y a"),
  ("ゆ", " y u"),
  ("よ", " y o"),
  ("わ", " w a"),
  ("ゐ", " i"),
  ("ゑ", " e"),
  ("ん", " N"),
  ("っ", " q"),
  ("ー", ":"),
  ("ぁ", " a"),
  ("ぃ", " i"),
  ("ぅ", " u"),
  ("ぇ", " e"),
  ("ぉ", " o"),
  ("ゎ", " w a"),
  ("ぉ", " o"),
  ("を", " o")]

/-- One `.replace` link of the cascade. -/
def applyRule (s : List Char) (pr : String × String) : List Char :=
  replaceList pr.1.toList pr.2.toList s

/-- The whole cascade in source order. -/
def applyRules (l : List Char) : List Char :=
  rules.foldl applyRule l

/-- ASCII `[a-z]`. -/
def isAsciiLowerCh (c : Char) : Bool :=
  'a' ≤ c && c ≤ 'z'

/-- `re.sub(r'^ ([a-z]+)', r'\1', voca)`: drop one leading space when it is
followed by a lowercase ASCII letter. -/
def stripLeadingSpaceLower (l : List Char) : List Char :=
  match l with
  | a :: c :: rest => if a = ' ' ∧ isAsciiLowerCh c then c :: rest else a :: c :: rest
  | _ => l

/-- `.replace(':+', ':')` chained after the `re.sub` (main.py line 598):
a literal two-character substring replace, not a regex. -/
def postRewrite (l : List Char) : List Char :=
  replaceList [':', '+'] [':'] (stripLeadingSpaceLower l)

/-- The character class `[ a-zA-Z:]` whose complement triggers
`UnsupportedTranscriptError` (main.py line 600). -/
def vocaAllowed (c : Char) : Bool :=
  c == ' ' || ('a' ≤ c && c ≤ 'z') || ('A' ≤ c && c ≤ 'Z') || c == ':'

/-- The string reaching the validation step, for a given input line. -/
def vocaRaw (yomi : String) : List Char :=
  postRewrite (applyRules (pyRstrip yomi.toList))

inductive YomiErr
  | unsupported
deriving DecidableEq

/-- `PySegmentKit.yomi2voca` (main.py lines 296-604). -/
def yomi2voca (yomi : String) : Except YomiErr String :=
  let v := vocaRaw yomi
  if v.all vocaAllowed then .ok (String.mk v) else .error .unsupported

/-- The validated phonetic-token alphabet as the SPEC words it:
lowercase ASCII letters, colon, uppercase `N`, lowercase `q`, space. -/
def claimAlphabet (c : Char) : Bool :=
  ('a' ≤ c && c ≤ 'z') || c == ':' || c == 'N' || c == 'q' || c == ' '

/-- Characters that occur anywhere in some rule pattern (the spec's
"rule-table pattern domain"). -/
def patternDomain : List Char :=
  rules.foldr (fun pr acc => pr.1.toList ++ acc) []

/-- Characters that are themselves the whole pattern of some
single-character rule. -/
def singletonPatternChars : List Char :=
  rules.filterMap (fun pr =>
    match pr.1.toList with
    | [c] => some c
    | _ => none)

/-! ## Grammar / dictionary encoder (main.py lines 218-227) -/

/-- One dfa line: `"{} {} {} 0 {}".format(i, len(words)-i-1, i+1, '1' if i == 0 else '0')`. -/
def dfaLine (n i : Nat) : String :=
  toString i ++ " " ++ toString (n - i - 1) ++ " " ++ toString (i + 1) ++ " 0 " ++
    (if i = 0 then "1" else "0")

/-- The dfa file contents as a list of lines (trailing newlines left implicit). -/
def mkDfa (n : Nat) : List String :=
  (List.range n).map (dfaLine n) ++ [toString n ++ " -1 -1 1 0"]

/-- One dict line: `"{0} [w_{0}] {1}".format(i, words[i])`. -/
def dictLine (i : Nat) (w : String) : String :=
  toString i ++ " [w_" ++ toString i ++ "] " ++ w

/-- The dict file contents as a list of lines. -/
def mkDict (words : List String) : List String :=
  words.enum.map fun p => dictLine p.1 p.2

/-- The symbol table `wlist`: `wlist["w_{}".format(i)] = words[i]`. -/
def mkWlist (words : List String) : List (String × String) :=
  words.enum.map fun p => ("w_" ++ toString p.1, p.2)

/-! ## Alignment log parsing loop (main.py lines 263-288) -/

/-- `int()` on a nonempty ASCII digit capture. -/
def digitsToNat (ds : List Char) : Nat :=
  ds.foldl (fun n c => n * 10 + (c.toNat - 48)) 0

/-- The character class `[0-9\.-]` of the ignored score token. -/
def scoreChar (c : Char) : Bool :=
  c.isDigit || c == '.' || c == '-'

/-- After the matched `\] `, consume ` *[0-9\.-]+ *` and capture `(.*)$`. -/
def afterBracketScore (b e : Nat) (rest : List Char) : Option (Nat × Nat × List Char) :=
  let r1 := rest.dropWhile (fun c => c == ' ')
  let f := r1.takeWhile scoreChar
  if f.isEmpty then none
  else
    let r2 := (r1.drop f.length).dropWhile (fun c => c == ' ')
    some (b, e, r2)

/-- Attempt `\[ *(\d+) *(\d+)\] *[0-9\.-]+ *(.*)$` at the current position,
with Python's greedy/backtracking semantics.  When no space separates the
two digit captures, backtracking splits the single maximal digit run as
(all but last digit, last digit), and `]` must follow it directly. -/
def matchShapeAt : List Char → Option (Nat × Nat × List Char)
  | '[' :: rest =>
    let r1 := rest.dropWhile (fun c => c == ' ')
    let d1 := r1.takeWhile Char.isDigit
    if d1.isEmpty then none
    else
      let r2 := r1.drop d1.length
      let sp := r2.takeWhile (fun c => c == ' ')
      if sp.isEmpty then
        match r2 with
        | ']' :: r3 =>
          if 2 ≤ d1.length then
            afterBracketScore (digitsToNat d1.dropLast)
              (digitsToNat (d1.drop (d1.length - 1))) r3
          else none
        | _ => none
      else
        let r3 := r2.drop sp.length
        let d2 := r3.takeWhile Char.isDigit
        if d2.isEmpty then none
        else
          match r3.drop d2.length with
          | ']' :: r4 => afterBracketScore (digitsToNat d1) (digitsToNat d2) r4
          | _ => none
  | _ => none

/-- `re.search` of the trace-line pattern: leftmost matching position. -/
def searchShape : List Char → Option (Nat × Nat × List Char)
  | [] => none
  | a :: t =>
    match matchShapeAt (a :: t) with
    | some x => some x
    | none => searchShape t

/-- Attempt `\[(w_\d+)\]` at the current position, returning the capture. -/
def matchWSymAt : List Char → Option (List Char)
  | '[' :: 'w' :: '_' :: rest =>
    let ds := rest.takeWhile Char.isDigit
    if ds.isEmpty then none
    else
      match rest.drop ds.length with
      | ']' :: _ => some ('w' :: '_' :: ds)
      | _ => none
  | _ => none

/-- `re.search(r'\[(w_\d+)\]', line)`: leftmost occurrence. -/
def searchWSym : List Char → Option (List Char)
  | [] => none
  | a :: t =>
    match matchWSymAt (a :: t) with
    | some x => some x
    | none => searchWSym t

/-- Failure conditions of the parsing loop.  `malformed` models the
exception raised when a bracket-prefixed line inside the alignment region
does not match the trace-line pattern (`matched.groups()` on `None`);
`missingSymbol` models the dictionary `KeyError` on `wlist[...]`. -/
inductive ParseErr
  | malformed
  | missingSymbol
deriving DecidableEq

/-- The de-anonymization step (main.py lines 273-276): when more than one
word exists and the line contains a `[w_<i>]` token, substitute the symbol
table entry for every occurrence of the bare captured symbol. -/
def deAnonLine (numWords : Nat) (wlist : List (String × String)) (l : List Char) :
    Except ParseErr (List Char) :=
  if 1 < numWords then
    match searchWSym l with
    | none => .ok l
    | some sym =>
      match wlist.lookup (String.mk sym) with
      | none => .error .missingSymbol
      | some rep => .ok (replaceList sym rep.toList l)
  else .ok l

/-- `self.offset = 25  # ms`. -/
def offset : ℚ := 25

/-- `self.offset / 2 / 10**3` (main.py lines 143-146). -/
def offset_align : ℚ :=
  offset / 2 / 1000

/-- One emitted segmentation triple `(begintime, endtime, unit)`. -/
abbrev Triple := ℚ × ℚ × String

/-- Frame-to-time conversion (main.py lines 279-284), with Python float
arithmetic modelled exactly over `ℚ`. -/
def traceTriple (b e : Nat) (u : String) : Triple :=
  let begintime : ℚ := (b : ℚ) * 0.01
  let begintime := if b ≠ 0 then begintime + offset_align else begintime
  let endtime : ℚ := ((e : ℚ) + 1) * 0.01 + offset_align
  (begintime, endtime, u)

def beginMarker : List Char := "begin forced alignment".toList

def endMarker : List Char := "end forced alignment".toList

/-- One iteration of the log-reading loop (main.py lines 268-288).  The
state is the `reading_alignment` flag and the `results` accumulator.  Note
that after the substitution rebinds `line`, the end-marker test runs on the
substituted line. -/
def lineStep (numWords : Nat) (wlist : List (String × String))
    (st : Bool × List Triple) (line : String) :
    Except ParseErr (Bool × List Triple) :=
  let l := line.toList
  let reading := st.1 || containsSub beginMarker l
  if reading && (l.head? == some '[') then
    match deAnonLine numWords wlist l with
    | .error e => .error e
    | .ok l2 =>
      match searchShape l2 with
      | none => .error .malformed
      | some (b, e, u) =>
        .ok (if containsSub endMarker l2 then false else reading,
             st.2 ++ [traceTriple b e (String.mk u)])
  else
    .ok (if containsSub endMarker l then false else reading, st.2)

/-- The whole log-reading loop: fold `lineStep` from `(False, [])`. -/
def parseLog (numWords : Nat) (wlist : List (String × String))
    (lines : List String) : Except ParseErr (List Triple) :=
  (lines.foldlM (lineStep numWords wlist) (false, [])).map Prod.snd

/-- The `reading_alignment` flag after one line, ignoring failures
(used to describe the region state of prefixes that parse cleanly). -/
def nextReading (numWords : Nat) (wlist : List (String × String))
    (st : Bool) (line : String) : Bool :=
  let l := line.toList
  let reading := st || containsSub beginMarker l
  if reading && (l.head? == some '[') then
    let l2 := match deAnonLine numWords wlist l with
      | .ok x => x
      | .error _ => l
    if containsSub endMarker l2 then false else reading
  else
    if containsSub endMarker l then false else reading

/-- The `reading_alignment` flag after a clean prefix of the log. -/
def readingAfter (numWords : Nat) (wlist : List (String × String))
    (lines : List String) : Bool :=
  lines.foldl (nextReading numWords wlist) false

/-- A line is bad when, with the region flag `st` before it, it is
examined as a trace line but fails the trace-line pattern. -/
def badLine (numWords : Nat) (wlist : List (String × String))
    (st : Bool) (line : String) : Bool :=
  let l := line.toList
  (st || containsSub beginMarker l) && (l.head? == some '[') &&
    (match deAnonLine numWords wlist l with
     | .ok l2 => (searchShape l2).isNone
     | .error _ => false)

/-! ## Basic lemmas about the replace scan -/

theorem replaceGo_fuel (p r : List Char) :
    ∀ (f₁ : Nat) (s : List Char) (f₂ : Nat), s.length ≤ f₁ → s.length ≤ f₂ →
      replaceGo p r s f₁ = replaceGo p r s f₂ := by
  intro f₁
  induction f₁ with
  | zero =>
    intro s f₂ h₁ _
    have hs : s = [] := List.eq_nil_of_length_eq_zero (Nat.le_zero.mp h₁)
    subst hs
    cases f₂ <;> rfl
  | succ n ih =>
    intro s f₂ h₁ h₂
    cases s with
    | nil => cases f₂ <;> rfl
    | cons a t =>
      cases f₂ with
      | zero => simp at h₂
      | succ m =>
        simp only [replaceGo]
        have ht : t.length ≤ n := by simpa using h₁
        have ht₂ : t.length ≤ m := by simpa using h₂
        split
        · have hd : (t.drop (p.length - 1)).length ≤ t.length := by
            simp [List.length_drop]
          rw [ih _ _ (le_trans hd ht) (le_trans hd ht₂)]
        · rw [ih _ _ ht ht₂]

theorem replaceList_nil (p r : List Char) : replaceList p r [] = [] := rfl

theorem replaceList_cons (p r : List Char) (a : Char) (t : List Char) :
    replaceList p r (a :: t) =
      if 0 < p.length ∧ p.isPrefixOf (a :: t) then
        r ++ replaceList p r (t.drop (p.length - 1))
      else
        a :: replaceList p r t := by
  show replaceGo p r (a :: t) (t.length + 1) = _
  simp only [replaceGo]
  split
  · rw [replaceGo_fuel p r t.length _ ((t.drop (p.length - 1)).length)
      (by simp [List.length_drop]) le_rfl]
    rfl
  · rfl

theorem mem_replaceList (p r : List Char) :
    ∀ (s : List Char) (c : Char), c ∈ replaceList p r s → c ∈ s ∨ c ∈ r := by
  suffices H : ∀ (n : Nat) (s : List Char), s.length ≤ n →
      ∀ c, c ∈ replaceList p r s → c ∈ s ∨ c ∈ r by
    exact fun s c h => H s.length s le_rfl c h
  intro n
  induction n with
  | zero =>
    intro s hs c hc
    have : s = [] := List.eq_nil_of_length_eq_zero (Nat.le_zero.mp hs)
    subst this
    simp [replaceList_nil] at hc
  | succ n ih =>
    intro s hs c hc
    cases s with
    | nil => simp [replaceList_nil] at hc
    | cons a t =>
      rw [replaceList_cons] at hc
      have ht : t.length ≤ n := by simpa using hs
      split at hc
      · rcases List.mem_append.mp hc with h | h
        · exact Or.inr h
        · have hd : (t.drop (p.length - 1)).length ≤ n :=
            le_trans (by simp [List.length_drop]) ht
          rcases ih _ hd c h with h' | h'
          · exact Or.inl (List.mem_cons_of_mem a (List.mem_of_mem_drop h'))
          · exact Or.inr h'
      · rcases List.mem_cons.mp hc with h | h
        · exact Or.inl (h ▸ List.mem_cons_self a t)
        · rcases ih t ht c h with h' | h'
          · exact Or.inl (List.mem_cons_of_mem a h')
          · exact Or.inr h'

theorem not_mem_replaceList (p r : List Char) (s : List Char) (c : Char)
    (hs : c ∉ s) (hr : c ∉ r) : c ∉ replaceList p r s := by
  intro h
  rcases mem_replaceList p r s c h with h' | h' <;> [exact hs h'; exact hr h']

theorem singleton_replaceList_elim (x : Char) (r : List Char) (hr : x ∉ r) :
    ∀ (s : List Char), x ∉ replaceList [x] r s := by
  suffices H : ∀ (n : Nat) (s : List Char), s.length ≤ n → x ∉ replaceList [x] r s by
    exact fun s => H s.length s le_rfl
  intro n
  induction n with
  | zero =>
    intro s hs
    have : s = [] := List.eq_nil_of_length_eq_zero (Nat.le_zero.mp hs)
    subst this
    simp [replaceList_nil]
  | succ n ih =>
    intro s hs
    cases s with
    | nil => simp [replaceList_nil]
    | cons a t =>
      rw [replaceList_cons]
      have ht : t.length ≤ n := by simpa using hs
      by_cases h : 0 < ([x] : List Char).length ∧ ([x] : List Char).isPrefixOf (a :: t) = true
      · rw [if_pos h]
        intro hmem
        rcases List.mem_append.mp hmem with h' | h'
        · exact hr h'
        · simp only [List.length_cons, List.length_nil] at h'
          exact ih (t.drop 0) (by simpa using ht) (by simpa using h')
      · rw [if_neg h]
        intro hmem
        rcases List.mem_cons.mp hmem with h' | h'
        · subst h'
          exact h ⟨by simp, by simp [List.isPrefixOf]⟩
        · exact ih t ht h'

theorem isPrefixOf_subset {p s : List Char} (h : p.isPrefixOf s = true) :
    ∀ c ∈ p, c ∈ s := by
  have := List.isPrefixOf_iff_prefix.mp h
  exact fun c hc => this.subset hc

theorem replaceList_of_not_sub (p r : List Char) :
    ∀ (s : List Char), (∃ x ∈ p, x ∉ s) → replaceList p r s = s := by
  intro s
  induction s with
  | nil => intro _; rfl
  | cons a t ih =>
    intro hx
    rw [replaceList_cons]
    rcases hx with ⟨x, hxp, hxs⟩
    by_cases h : 0 < p.length ∧ p.isPrefixOf (a :: t) = true
    · exact absurd (isPrefixOf_subset h.2 x hxp) hxs
    · rw [if_neg h]
      have : x ∉ t := fun ht => hxs (List.mem_cons_of_mem a ht)
      rw [ih ⟨x, hxp, this⟩]

/-! ## C1, C3, C8 -/

/-- C1: a trace line with begin frame `b` and end frame `e`, at the
configured 25 ms offset, is emitted with
`beginTime = b * 0.01` plus the half-offset `25/2/1000` exactly when
`b ≠ 0`, and `endTime = (e+1) * 0.01 + 25/2/1000` unconditionally;
in particular `b = 10, e = 15` yields `(0.1125, 0.1725)`, also through
the full parsing loop. -/
theorem c1_frame_to_time :
    (∀ (b e : Nat) (u : String),
      traceTriple b e u =
        ((b : ℚ) * 0.01 + (if b ≠ 0 then 25 / 2 / 1000 else 0),
         ((e : ℚ) + 1) * 0.01 + 25 / 2 / 1000, u)) ∧
    traceTriple 10 15 "x" = (0.1125, 0.1725, "x") ∧
    parseLog 1 [] ["begin forced alignment", "[ 10 15] 0.0 x"] =
      .ok [(0.1125, 0.1725, "x")] := by
  have hform : ∀ (b e : Nat) (u : String),
      traceTriple b e u =
        ((b : ℚ) * 0.01 + (if b ≠ 0 then 25 / 2 / 1000 else 0),
         ((e : ℚ) + 1) * 0.01 + 25 / 2 / 1000, u) := by
    intro b e u
    simp only [traceTriple, offset_align, offset]
    by_cases hb : b = 0
    · subst hb; norm_num
    · simp [hb]
  have h1015 : traceTriple 10 15 "x" = (0.1125, 0.1725, "x") := by
    rw [hform]
    norm_num
  refine ⟨hform, h1015, ?_⟩
  have h : parseLog 1 [] ["begin forced alignment", "[ 10 15] 0.0 x"] =
      .ok [traceTriple 10 15 "x"] := rfl
  rw [h, h1015]

/-- C3: for `N` PhoneGroups the dfa text has exactly `N+1` lines; line
`i < N` is `"<i> <N-i-1> <i+1> 0 <s>"` with `s = 1` iff `i = 0`; the final
line is `"<N> -1 -1 1 0"`; the second field strictly decreases; and `N = 0`
produces only the terminal line. -/
theorem c3_grammar_lines (n : Nat) :
    (mkDfa n).length = n + 1 ∧
    (∀ i, i < n → (mkDfa n)[i]? =
      some (toString i ++ " " ++ toString (n - i - 1) ++ " " ++ toString (i + 1) ++ " 0 " ++
        (if i = 0 then "1" else "0"))) ∧
    (mkDfa n)[n]? = some (toString n ++ " -1 -1 1 0") ∧
    (∀ i j, i < j → j < n → n - j - 1 < n - i - 1) ∧
    mkDfa 0 = ["0 -1 -1 1 0"] := by
  refine ⟨?_, ?_, ?_, ?_, rfl⟩
  · simp [mkDfa]
  · intro i hi
    rw [mkDfa, List.getElem?_append_left (by simpa using hi)]
    simp [List.getElem?_range, hi, dfaLine]
  · rw [mkDfa, List.getElem?_append_right (by simp)]
    simp
  · intro i j hij hj
    omega

/-- Witness for C3 at `n = 2`, discharging the index hypotheses. -/
theorem c3_grammar_lines_witness :
    (mkDfa 2)[0]? = some "0 1 1 0 1" ∧ (mkDfa 2)[1]? = some "1 0 2 0 0" ∧
    (mkDfa 2)[2]? = some "2 -1 -1 1 0" ∧ 2 - 1 - 1 < 2 - 0 - 1 := by
  refine ⟨?_, ?_, ?_, (c3_grammar_lines 2).2.2.2.1 0 1 (by norm_num) (by norm_num)⟩
  · exact ((c3_grammar_lines 2).2.1 0 (by norm_num)).trans (by rfl)
  · exact ((c3_grammar_lines 2).2.1 1 (by norm_num)).trans (by rfl)
  · exact (c3_grammar_lines 2).2.2.1.trans (by rfl)

/-- C8: the dict text has one line per unit, line `i` being
`"<i> [w_<i>] <phoneString_i>"`, and the symbol table consists of exactly
the pairs `(w_i, phoneString_i)` for `i < N` in order. -/
theorem c8_dict_wlist (words : List String) :
    (mkDict words).length = words.length ∧
    (∀ (i : ℕ) (w : String), words[i]? = some w →
      (mkDict words)[i]? = some (toString i ++ " [w_" ++ toString i ++ "] " ++ w)) ∧
    (mkWlist words).map Prod.fst =
      (List.range words.length).map (fun i : ℕ => "w_" ++ toString i) ∧
    (∀ (i : ℕ) (w : String), words[i]? = some w →
      (mkWlist words)[i]? = some ("w_" ++ toString i, w)) := by
  refine ⟨?_, ?_, ?_, ?_⟩
  · simp [mkDict]
  · intro i w hw
    rw [mkDict, List.getElem?_map, List.getElem?_enum, hw]
    rfl
  · rw [mkWlist, List.map_map]
    rw [show (Prod.fst ∘ fun p : ℕ × String => (("w_" ++ toString p.1 : String), p.2)) =
      ((fun i : ℕ => ("w_" ++ toString i : String)) ∘ Prod.fst) from rfl]
    rw [← List.map_map, List.enum_map_fst]
  · intro i w hw
    rw [mkWlist, List.getElem?_map, List.getElem?_enum, hw]
    rfl

/-- Witness for C8 at `words = ["s a", "k i"]`, `i = 1`. -/
theorem c8_dict_wlist_witness :
    (mkDict ["s a", "k i"])[1]? = some "1 [w_1] k i" ∧
    (mkWlist ["s a", "k i"])[1]? = some ("w_1", "k i") :=
  ⟨((c8_dict_wlist ["s a", "k i"]).2.1 1 "k i" rfl).trans (by rfl),
   ((c8_dict_wlist ["s a", "k i"]).2.2.2 1 "k i" rfl).trans (by rfl)⟩

/-! ## Helper lemmas about the transliterator pipeline -/

theorem stripLeadingSpaceLower_of_lower (c : Char) (rest : List Char)
    (h : isAsciiLowerCh c = true) :
    stripLeadingSpaceLower (' ' :: c :: rest) = c :: rest := by
  simp [stripLeadingSpaceLower, h]

theorem stripLeadingSpaceLower_eq_self (l : List Char)
    (h : ∀ c rest, l = ' ' :: c :: rest → isAsciiLowerCh c = false) :
    stripLeadingSpaceLower l = l := by
  cases l with
  | nil => rfl
  | cons a t =>
    cases t with
    | nil => rfl
    | cons c r =>
      simp only [stripLeadingSpaceLower]
      rw [if_neg]
      rintro ⟨rfl, hc⟩
      rw [h c r rfl] at hc
      cases hc

theorem mem_stripLeadingSpaceLower (l : List Char) (c : Char)
    (h : c ∈ stripLeadingSpaceLower l) : c ∈ l := by
  cases l with
  | nil => exact h
  | cons a t =>
    cases t with
    | nil => exact h
    | cons b r =>
      simp only [stripLeadingSpaceLower] at h
      split at h
      · exact List.mem_cons_of_mem a h
      · exact h

theorem mem_pyRstrip (l : List Char) (c : Char) (h : c ∈ pyRstrip l) : c ∈ l := by
  unfold pyRstrip at h
  rw [List.mem_reverse] at h
  exact List.mem_reverse.mp ((List.dropWhile_sublist _).subset h)

theorem claimAlphabet_vocaAllowed (c : Char) (h : claimAlphabet c = true) :
    vocaAllowed c = true := by
  simp only [claimAlphabet, Bool.or_eq_true, Bool.and_eq_true, beq_iff_eq,
    decide_eq_true_eq] at h
  simp only [vocaAllowed, Bool.or_eq_true, Bool.and_eq_true, beq_iff_eq,
    decide_eq_true_eq]
  rcases h with ((((⟨h1, h2⟩ | rfl) | rfl) | rfl) | rfl)
  · tauto
  all_goals decide

theorem rules_pattern_ne_nil : (rules.all fun pr => !pr.1.toList.isEmpty) = true := by
  decide

theorem rules_pattern_chars : (rules.all fun pr => pr.1.toList.all
    fun c => !claimAlphabet c) = true := by
  decide

theorem rules_repl_chars : (rules.all fun pr => pr.2.toList.all claimAlphabet) = true := by
  decide

theorem singletonPatternChars_not_claim :
    (singletonPatternChars.all fun c => !claimAlphabet c) = true := by
  decide

theorem char_not_in_repls (c : Char) (hc : claimAlphabet c = false) :
    ∀ pr ∈ rules, c ∉ pr.2.toList := by
  intro pr hpr hmem
  have h1 := List.all_eq_true.mp rules_repl_chars pr hpr
  have h2 := List.all_eq_true.mp h1 c hmem
  rw [hc] at h2
  cases h2

theorem foldl_applyRule_mem (rs : List (String × String)) :
    ∀ (l : List Char) (c : Char), c ∈ rs.foldl applyRule l →
      c ∈ l ∨ ∃ pr ∈ rs, c ∈ pr.2.toList := by
  induction rs with
  | nil => intro l c h; exact Or.inl h
  | cons pr rs ih =>
    intro l c h
    rcases ih (applyRule l pr) c h with h' | ⟨pr', hpr', hc'⟩
    · rcases mem_replaceList _ _ _ _ h' with h'' | h''
      · exact Or.inl h''
      · exact Or.inr ⟨pr, List.mem_cons_self pr rs, h''⟩
    · exact Or.inr ⟨pr', List.mem_cons_of_mem pr hpr', hc'⟩

theorem foldl_applyRule_not_mem (rs : List (String × String)) (c : Char) :
    ∀ (l : List Char), c ∉ l → (∀ pr ∈ rs, c ∉ pr.2.toList) →
      c ∉ rs.foldl applyRule l := by
  induction rs with
  | nil => intro l hl _; exact hl
  | cons pr rs ih =>
    intro l hl hr
    simp only [List.foldl_cons]
    exact ih _ (not_mem_replaceList _ _ _ _ hl (hr pr (List.mem_cons_self pr rs)))
      fun pr' h' => hr pr' (List.mem_cons_of_mem pr h')

theorem foldl_applyRule_id (rs : List (String × String)) :
    ∀ (l : List Char), (∀ pr ∈ rs, ∃ x ∈ pr.1.toList, x ∉ l) →
      rs.foldl applyRule l = l := by
  induction rs with
  | nil => intro l _; rfl
  | cons pr rs ih =>
    intro l h
    simp only [List.foldl_cons]
    have h0 : applyRule l pr = l :=
      replaceList_of_not_sub _ _ l (h pr (List.mem_cons_self pr rs))
    rw [h0]
    exact ih l fun pr' h' => h pr' (List.mem_cons_of_mem pr h')

theorem singleton_char_not_in_applyRules (c : Char)
    (hcs : c ∈ singletonPatternChars) (l : List Char) : c ∉ applyRules l := by
  have hcfalse : claimAlphabet c = false := by
    have := List.all_eq_true.mp singletonPatternChars_not_claim c hcs
    cases hcl : claimAlphabet c
    · rfl
    · rw [hcl] at this; cases this
  rcases List.mem_filterMap.mp hcs with ⟨pr, hpr, hmatch⟩
  have hp1 : pr.1.toList = [c] := by
    rcases hl : pr.1.toList with _ | ⟨a, _ | ⟨b, t⟩⟩ <;> rw [hl] at hmatch <;>
      simp only [] at hmatch
    · cases hmatch
    · rw [Option.some_inj] at hmatch; rw [hmatch]
    · cases hmatch
  rcases List.append_of_mem hpr with ⟨pre, post, hsplit⟩
  rw [applyRules, hsplit, List.foldl_append, List.foldl_cons]
  have hnotr : c ∉ pr.2.toList := char_not_in_repls c hcfalse pr hpr
  have helim : c ∉ applyRule (pre.foldl applyRule l) pr := by
    unfold applyRule
    rw [hp1]
    exact singleton_replaceList_elim c _ hnotr _
  exact foldl_applyRule_not_mem post c _ helim
    fun pr' h' => char_not_in_repls c hcfalse pr' (hsplit ▸ (by
      exact List.mem_append.mpr (Or.inr (List.mem_cons_of_mem pr h'))))

/-! ## C2, C6, C9, C10 -/

/-- C2 counterexample: the claim's validated alphabet excludes `'B'`, so an
input whose residue is `"B"` should raise; the code's class `[^ a-zA-Z:]`
accepts every uppercase letter and returns `"B"` without error. -/
theorem c2_counterexample :
    yomi2voca "B" = .ok "B" ∧ claimAlphabet 'B' = false :=
  ⟨rfl, rfl⟩

/-- C2 (amended): `UnsupportedTranscriptError` is raised iff the
post-rewrite string contains a character outside `[ a-zA-Z:]` (space, ASCII
letters of either case, colon); any residue containing a Latin digit
raises; a residue made only of permitted characters is returned as-is. -/
theorem c2_validation_amended (y : String) :
    (yomi2voca y = .error .unsupported ↔ (vocaRaw y).all vocaAllowed = false) ∧
    (∀ c : Char, c ∈ vocaRaw y →
      c ∈ ['0', '1', '2', '3', '4', '5', '6', '7', '8', '9'] →
      yomi2voca y = .error .unsupported) ∧
    ((vocaRaw y).all vocaAllowed = true → yomi2voca y = .ok (String.mk (vocaRaw y))) := by
  refine ⟨?_, ?_, ?_⟩
  · cases h : (vocaRaw y).all vocaAllowed <;> simp [yomi2voca, h]
  · intro c hc hdig
    have hbad : vocaAllowed c = false := by
      simp only [List.mem_cons, List.not_mem_nil, or_false] at hdig
      rcases hdig with rfl | rfl | rfl | rfl | rfl | rfl | rfl | rfl | rfl | rfl <;> rfl
    have hall : (vocaRaw y).all vocaAllowed = false := by
      cases h : (vocaRaw y).all vocaAllowed
      · rfl
      · have := List.all_eq_true.mp h c hc
        simp [hbad] at this
    simp [yomi2voca, hall]
  · intro h
    simp [yomi2voca, h]

/-- Witness for C2 (amended) at `y = "1"` (a Latin digit residue). -/
theorem c2_validation_witness : yomi2voca "1" = .error .unsupported :=
  (c2_validation_amended "1").2.1 '1' (by decide) (by decide)

/-- C6 counterexample: two chōonpu characters rewrite to `"::"`, and the
doubled colon is NOT collapsed (the code replaces the literal substring
`":+"`, not a regex `:+`), so the claimed collapse to `":"` fails. -/
theorem c6_counterexample :
    yomi2voca "ーー" = .ok "::" ∧ ("::" : String) ≠ ":" :=
  ⟨rfl, by decide⟩

/-- C6 (amended): after the cascade, a single leading space is stripped
only when followed by a LOWERCASE ASCII letter (a leading `" N"` keeps its
space), and the post-step replaces occurrences of the literal two-character
substring `":+"` by `":"` — on `'+'`-free strings it is the identity, so
doubled colons are not collapsed. -/
theorem c6_post_amended :
    (∀ (c : Char) (rest : List Char), isAsciiLowerCh c = true →
      stripLeadingSpaceLower (' ' :: c :: rest) = c :: rest) ∧
    (∀ l : List Char, (∀ c rest, l = ' ' :: c :: rest → isAsciiLowerCh c = false) →
      stripLeadingSpaceLower l = l) ∧
    (∀ l : List Char, '+' ∉ l → replaceList [':', '+'] [':'] l = l) ∧
    yomi2voca "ん" = .ok " N" := by
  refine ⟨stripLeadingSpaceLower_of_lower, stripLeadingSpaceLower_eq_self, ?_, rfl⟩
  intro l hl
  exact replaceList_of_not_sub _ _ _ ⟨'+', by decide, hl⟩

/-- Witness for C6 (amended): strip at a lowercase head, and the `":+"`
replace leaving `"::"` untouched. -/
theorem c6_post_witness :
    stripLeadingSpaceLower (' ' :: 'a' :: []) = ['a'] ∧
    replaceList [':', '+'] [':'] "::".toList = "::".toList :=
  ⟨c6_post_amended.1 'a' [] (by decide),
   c6_post_amended.2.2.1 "::".toList (by decide)⟩

/-- C9 counterexample: `'ゃ'` occurs in the pattern domain (e.g. in
`"きゃ"`), yet the line `"ゃ"` raises `UnsupportedTranscriptError`
because no rule consumes a lone small `ゃ`. -/
theorem c9_counterexample :
    ('ゃ' ∈ patternDomain) ∧ yomi2voca "ゃ" = .error .unsupported :=
  ⟨by decide, rfl⟩

/-- C9 (amended): for every line composed solely of characters that are
themselves the whole pattern of some single-character rule, transliteration
returns successfully and the pre-validation string contains only
characters of the validated alphabet. -/
theorem c9_domain_amended (y : String)
    (h : ∀ c ∈ y.toList, c ∈ singletonPatternChars) :
    yomi2voca y = .ok (String.mk (vocaRaw y)) ∧
    (∀ c ∈ vocaRaw y, claimAlphabet c = true) := by
  have hr : ∀ c ∈ pyRstrip y.toList, c ∈ singletonPatternChars :=
    fun c hc => h c (mem_pyRstrip _ c hc)
  have key : ∀ c ∈ applyRules (pyRstrip y.toList), claimAlphabet c = true := by
    intro c hc
    cases hcl : claimAlphabet c
    · exfalso
      unfold applyRules at hc
      rcases foldl_applyRule_mem rules _ c hc with hsrc | ⟨pr, hpr, hcr⟩
      · exact singleton_char_not_in_applyRules c (hr c hsrc) _ hc
      · exact char_not_in_repls c hcl pr hpr hcr
    · rfl
  have hval : ∀ c ∈ vocaRaw y, claimAlphabet c = true := by
    intro c hc
    unfold vocaRaw postRewrite at hc
    rcases mem_replaceList _ _ _ _ hc with hc' | hc'
    · exact key c (mem_stripLeadingSpaceLower _ c hc')
    · simp only [List.mem_singleton] at hc'
      subst hc'
      rfl
  refine ⟨?_, hval⟩
  have hall : (vocaRaw y).all vocaAllowed = true :=
    List.all_eq_true.mpr fun c hc => claimAlphabet_vocaAllowed c (hval c hc)
  simp [yomi2voca, hall]

/-- Witness for C9 (amended) at `y = "あい"`. -/
theorem c9_domain_witness : yomi2voca "あい" = .ok "a i" := by
  have h := (c9_domain_amended "あい" (by decide)).1
  rw [h]
  rfl

/-- C10 counterexample: `" a"` contains only validated-alphabet characters
but is NOT returned unchanged — the leading space is stripped. -/
theorem c10_counterexample :
    (" a".toList.all claimAlphabet) = true ∧
    yomi2voca " a" = .ok "a" ∧ (("a" : String) ≠ " a") :=
  ⟨by decide, rfl, by decide⟩

/-- C10 (amended): a validated-alphabet string is returned unchanged
provided it additionally has no trailing whitespace (else `rstrip` removes
it) and does not begin with a space followed by a lowercase letter (else
the leading-space strip removes the space). -/
theorem c10_idempotent_amended (y : String)
    (h1 : ∀ c ∈ y.toList, claimAlphabet c = true)
    (h2 : pyRstrip y.toList = y.toList)
    (h3 : ∀ c rest, y.toList = ' ' :: c :: rest → isAsciiLowerCh c = false) :
    yomi2voca y = .ok y := by
  have hplus : ('+' : Char) ∉ y.toList := by
    intro hmem
    exact absurd (h1 '+' hmem) (by decide)
  have hfold : applyRules y.toList = y.toList := by
    apply foldl_applyRule_id
    intro pr hpr
    have hne : pr.1.toList ≠ [] := by
      have := List.all_eq_true.mp rules_pattern_ne_nil pr hpr
      simpa using this
    rcases List.exists_mem_of_ne_nil _ hne with ⟨x, hx⟩
    refine ⟨x, hx, fun hxy => ?_⟩
    have hx1 := List.all_eq_true.mp (List.all_eq_true.mp rules_pattern_chars pr hpr) x hx
    rw [h1 x hxy] at hx1
    cases hx1
  have hraw : vocaRaw y = y.toList := by
    unfold vocaRaw postRewrite
    rw [h2, hfold, stripLeadingSpaceLower_eq_self _ h3]
    exact replaceList_of_not_sub _ _ _ ⟨'+', by decide, hplus⟩
  have hall2 : (y.toList).all vocaAllowed = true :=
    List.all_eq_true.mpr fun c hc => claimAlphabet_vocaAllowed c (h1 c hc)
  have hmk : String.mk y.toList = y := by
    cases y
    rfl
  simp only [yomi2voca]
  rw [hraw]
  simp only [hall2, if_true]
  exact congrArg Except.ok hmk

/-- Witness for C10 (amended) at `y = "k o N"`. -/
theorem c10_idempotent_witness : yomi2voca "k o N" = .ok "k o N" :=
  c10_idempotent_amended "k o N" (by decide) (by decide)
    (by
      intro c rest h
      rw [show ("k o N".toList) = ['k', ' ', 'o', ' ', 'N'] from rfl] at h
      injection h with h1 _
      exact absurd h1 (by decide))

/-! ## Lemmas for the de-anonymization step (C5) -/

theorem containsSub_cons (p : List Char) (a : Char) (t : List Char) :
    containsSub p (a :: t) = (p.isPrefixOf (a :: t) || containsSub p t) := rfl

theorem matchWSymAt_shape {l sym : List Char} (h : matchWSymAt l = some sym) :
    ∃ ds, sym = 'w' :: '_' :: ds ∧ ds ≠ [] ∧ ∀ c ∈ ds, c.isDigit = true := by
  unfold matchWSymAt at h
  split at h
  next rest =>
    by_cases hds : (rest.takeWhile Char.isDigit).isEmpty
    · rw [if_pos hds] at h
      cases h
    · rw [if_neg hds] at h
      split at h
      · refine ⟨rest.takeWhile Char.isDigit, (Option.some_inj.mp h).symm, ?_, ?_⟩
        · intro hnil
          rw [hnil] at hds
          exact hds rfl
        · intro c hc
          exact List.mem_takeWhile_imp hc
      · cases h
  next => cases h

theorem searchWSym_shape : ∀ {l sym : List Char}, searchWSym l = some sym →
    ∃ ds, sym = 'w' :: '_' :: ds ∧ ds ≠ [] ∧ ∀ c ∈ ds, c.isDigit = true := by
  intro l
  induction l with
  | nil => intro sym h; cases h
  | cons a t ih =>
    intro sym h
    unfold searchWSym at h
    split at h
    next x hx =>
      rw [Option.some_inj.mp h] at hx
      exact matchWSymAt_shape hx
    next => exact ih h

theorem contains_wsym_append (ds : List Char) :
    ∀ (R X : List Char), '_' ∉ R → R.getLast? ≠ some 'w' →
      containsSub ('w' :: '_' :: ds) (R ++ X) = true →
      containsSub ('w' :: '_' :: ds) X = true := by
  intro R
  induction R with
  | nil => intro X _ _ h; simpa using h
  | cons c R ih =>
    intro X hR1 hR2 h
    rw [List.cons_append, containsSub_cons] at h
    rcases Bool.or_eq_true_iff.mp h with hpre | hrest
    · simp only [List.isPrefixOf, Bool.and_eq_true, beq_iff_eq] at hpre
      rcases hpre with ⟨hcw, htail⟩
      cases R with
      | nil =>
        exact absurd (by rw [List.getLast?_singleton, ← hcw]) hR2
      | cons d R' =>
        simp only [List.cons_append, List.isPrefixOf, Bool.and_eq_true, beq_iff_eq] at htail
        refine absurd ?_ hR1
        rw [htail.1]
        exact List.mem_cons_of_mem c (List.mem_cons_self d R')
    · refine ih X (fun hm => hR1 (List.mem_cons_of_mem c hm)) ?_ hrest
      cases R with
      | nil => simp
      | cons d R' => rwa [List.getLast?_cons_cons] at hR2

theorem prefix_digits_replace (p r : List Char) (hr : r ≠ [])
    (hrh : ∀ c ∈ r, ¬(c = '_' ∨ c.isDigit = true)) :
    ∀ (n : Nat) (t : List Char), t.length ≤ n → ∀ (q : List Char), q ≠ [] →
      (∀ c ∈ q, c = '_' ∨ c.isDigit = true) →
      q.isPrefixOf (replaceList p r t) = true → q.isPrefixOf t = true := by
  intro n
  induction n with
  | zero =>
    intro t ht q hq _ hpre
    have : t = [] := List.eq_nil_of_length_eq_zero (Nat.le_zero.mp ht)
    subst this
    rw [replaceList_nil] at hpre
    cases q with
    | nil => exact absurd rfl hq
    | cons q0 q' => simp [List.isPrefixOf] at hpre
  | succ n ih =>
    intro t ht q hq hqc hpre
    cases t with
    | nil =>
      rw [replaceList_nil] at hpre
      cases q with
      | nil => exact absurd rfl hq
      | cons q0 q' => simp [List.isPrefixOf] at hpre
    | cons a t' =>
      have ht' : t'.length ≤ n := by simpa using ht
      rw [replaceList_cons] at hpre
      split at hpre
      · cases q with
        | nil => exact absurd rfl hq
        | cons q0 q' =>
          cases hrr : r with
          | nil => exact absurd hrr hr
          | cons r0 r' =>
            rw [hrr, List.cons_append] at hpre
            simp only [List.isPrefixOf, Bool.and_eq_true, beq_iff_eq] at hpre
            have hq0 := hqc q0 (List.mem_cons_self q0 q')
            have hr0 := hrh r0 (hrr ▸ List.mem_cons_self r0 r')
            rw [hpre.1] at hq0
            exact absurd hq0 hr0
      · cases q with
        | nil => exact absurd rfl hq
        | cons q0 q' =>
          simp only [List.isPrefixOf, Bool.and_eq_true, beq_iff_eq] at hpre ⊢
          refine ⟨hpre.1, ?_⟩
          cases q' with
          | nil => simp [List.isPrefixOf]
          | cons q1 q'' =>
            exact ih t' ht' (q1 :: q'') (by simp)
              (fun c hc => hqc c (List.mem_cons_of_mem q0 hc)) hpre.2

theorem replace_wsym_no_occurrence (ds r : List Char)
    (hds : ∀ c ∈ ds, c.isDigit = true)
    (hr0 : r ≠ []) (hr1 : '_' ∉ r) (hr2 : ∀ c ∈ r, c.isDigit = false)
    (hr3 : r.getLast? ≠ some 'w') :
    ∀ s, containsSub ('w' :: '_' :: ds) (replaceList ('w' :: '_' :: ds) r s) = false := by
  have hrh : ∀ c ∈ r, ¬(c = '_' ∨ c.isDigit = true) := by
    intro c hc hor
    rcases hor with rfl | hd
    · exact hr1 hc
    · rw [hr2 c hc] at hd; cases hd
  suffices H : ∀ (n : Nat) (s : List Char), s.length ≤ n →
      containsSub ('w' :: '_' :: ds) (replaceList ('w' :: '_' :: ds) r s) = false by
    exact fun s => H s.length s le_rfl
  intro n
  induction n with
  | zero =>
    intro s hs
    have : s = [] := List.eq_nil_of_length_eq_zero (Nat.le_zero.mp hs)
    subst this
    rw [replaceList_nil]
    simp [containsSub, List.isPrefixOf]
  | succ n ih =>
    intro s hs
    cases s with
    | nil =>
      rw [replaceList_nil]
      simp [containsSub, List.isPrefixOf]
    | cons a t =>
      have ht : t.length ≤ n := by simpa using hs
      rw [replaceList_cons]
      split
      next hmatch =>
        have hd : (t.drop (('w' :: '_' :: ds).length - 1)).length ≤ n :=
          le_trans (by simp [List.length_drop]) ht
        by_contra hcc
        rw [Bool.not_eq_false] at hcc
        have := contains_wsym_append ds r _ hr1 hr3 hcc
        rw [ih _ hd] at this
        cases this
      next hmatch =>
        rw [containsSub_cons]
        rw [Bool.or_eq_false_iff]
        refine ⟨?_, ih t ht⟩
        cases hpre : ('w' :: '_' :: ds).isPrefixOf (a :: replaceList ('w' :: '_' :: ds) r t)
        · rfl
        · exfalso
          simp only [List.isPrefixOf, Bool.and_eq_true, beq_iff_eq] at hpre
          rcases hpre with ⟨hwa, htail⟩
          have hqpre : ('_' :: ds).isPrefixOf t = true := by
            refine prefix_digits_replace ('w' :: '_' :: ds) r hr0 hrh t.length t le_rfl
              ('_' :: ds) (by simp) ?_ ?_
            · intro c hc
              rcases List.mem_cons.mp hc with rfl | hc'
              · exact Or.inl rfl
              · exact Or.inr (hds c hc')
            · exact htail
          exact hmatch ⟨by simp, by
            simp only [List.isPrefixOf, Bool.and_eq_true, beq_iff_eq]
            exact ⟨hwa, hqpre⟩⟩

/-! ## C5, C7 -/

/-- C5 counterexample: with two units, symbol table `w_0 -> "a"` and the
trace line `"[w_0] 0.0 w_0"`, the code substitutes BOTH occurrences of the
bare text `w_0` and keeps the brackets, yielding `"[a] 0.0 a"`; the claim
(replace only the first occurrence, the bracketed token itself) would
yield `"a 0.0 w_0"`. -/
theorem c5_counterexample :
    deAnonLine 2 [("w_0", "a")] "[w_0] 0.0 w_0".toList = .ok "[a] 0.0 a".toList ∧
    replaceFirst "[w_0]".toList "a".toList "[w_0] 0.0 w_0".toList = "a 0.0 w_0".toList ∧
    ("[a] 0.0 a".toList ≠ "a 0.0 w_0".toList) :=
  ⟨rfl, rfl, by decide⟩

/-- C5 (amended): with at most one unit, or no `[w_<i>]` token in the line,
the line is unchanged; otherwise the looked-up phone string is substituted
for EVERY occurrence of the bare symbol text (brackets are not removed):
when the replacement cannot re-create the symbol (it is nonempty, contains
no underscore and no digit, and does not end in `w` — all true of phone
strings), no occurrence of the symbol survives in the line. -/
theorem c5_deanon_amended (numWords : Nat) (wlist : List (String × String))
    (l : List Char) :
    (numWords ≤ 1 → deAnonLine numWords wlist l = .ok l) ∧
    (searchWSym l = none → deAnonLine numWords wlist l = .ok l) ∧
    (∀ sym rep, 1 < numWords → searchWSym l = some sym →
      wlist.lookup (String.mk sym) = some rep →
      rep.toList ≠ [] → '_' ∉ rep.toList → (∀ c ∈ rep.toList, c.isDigit = false) →
      rep.toList.getLast? ≠ some 'w' →
      deAnonLine numWords wlist l = .ok (replaceList sym rep.toList l) ∧
      containsSub sym (replaceList sym rep.toList l) = false) := by
  refine ⟨?_, ?_, ?_⟩
  · intro h
    unfold deAnonLine
    rw [if_neg (by omega)]
  · intro h
    by_cases hn : 1 < numWords
    · simp only [deAnonLine, if_pos hn, h]
    · simp only [deAnonLine, if_neg hn]
  · intro sym rep hn hsym hlook h1 h2 h3 h4
    rcases searchWSym_shape hsym with ⟨ds, rfl, _, hdsd⟩
    constructor
    · simp only [deAnonLine, if_pos hn, hsym, hlook]
    · exact replace_wsym_no_occurrence ds rep.toList hdsd h1 h2 h3 h4 l

/-- Witness for C5 (amended) at a concrete two-unit line. -/
theorem c5_deanon_witness :
    deAnonLine 2 [("w_0", "ab")] "[w_0] 1".toList = .ok "[ab] 1".toList ∧
    containsSub "w_0".toList "[ab] 1".toList = false := by
  have h := (c5_deanon_amended 2 [("w_0", "ab")] "[w_0] 1".toList).2.2
    "w_0".toList "ab" (by norm_num) rfl rfl (by decide) (by decide)
    (by
      intro c hc
      rw [show ("ab").toList = ['a', 'b'] from rfl] at hc
      rcases List.mem_cons.mp hc with rfl | hc
      · rfl
      rcases List.mem_cons.mp hc with rfl | hc
      · rfl
      · cases hc)
    (by decide)
  refine ⟨h.1.trans ?_, ?_⟩
  · rfl
  · have h2 := h.2
    rwa [show replaceList "w_0".toList "ab".toList "[w_0] 1".toList =
      "[ab] 1".toList from rfl] at h2

/-- C7: encoding the 3-unit utterance `["k o N", "n i ch i", "w a"]` and
parsing a synthetic log whose alignment region holds exactly 3 correctly
bracketed trace lines (frames 0-10, 11-20, 21-30, with `[w_<i>]` tokens
resolved through the symbol table) yields exactly the 3 triples whose
labels are the original phone strings in order and whose times follow the
frame-to-time formula at the 25 ms offset. -/
theorem c7_round_trip :
    mkDfa 3 = ["0 2 1 0 1", "1 1 2 0 0", "2 0 3 0 0", "3 -1 -1 1 0"] ∧
    mkDict ["k o N", "n i ch i", "w a"] =
      ["0 [w_0] k o N", "1 [w_1] n i ch i", "2 [w_2] w a"] ∧
    mkWlist ["k o N", "n i ch i", "w a"] =
      [("w_0", "k o N"), ("w_1", "n i ch i"), ("w_2", "w a")] ∧
    parseLog 3 (mkWlist ["k o N", "n i ch i", "w a"])
      ["### begin forced alignment",
       "[w_0] [ 0 10] -1.000000 w_0",
       "[w_1] [ 11 20] -2.000000 w_1",
       "[w_2] [ 21 30] -3.000000 w_2",
       "### end forced alignment"] =
      .ok [traceTriple 0 10 "k o N", traceTriple 11 20 "n i ch i",
           traceTriple 21 30 "w a"] ∧
    traceTriple 0 10 "k o N" = (0, 0.1225, "k o N") ∧
    traceTriple 11 20 "n i ch i" = (0.1225, 0.2225, "n i ch i") ∧
    traceTriple 21 30 "w a" = (0.2225, 0.3225, "w a") := by
  refine ⟨rfl, rfl, rfl, rfl, ?_, ?_, ?_⟩ <;>
    norm_num [traceTriple, offset_align, offset]

/-! ## C4 -/

theorem deAnonLine_ok (numWords : Nat) (wlist : List (String × String)) (l : List Char)
    (H : ∀ sym, searchWSym l = some sym →
      (wlist.lookup (String.mk sym)).isSome = true) :
    ∃ l2, deAnonLine numWords wlist l = .ok l2 := by
  by_cases hn : 1 < numWords
  · cases hs : searchWSym l with
    | none => exact ⟨l, by simp only [deAnonLine, if_pos hn, hs]⟩
    | some sym =>
      cases hl : wlist.lookup (String.mk sym) with
      | none =>
        have := H sym hs
        rw [hl] at this
        cases this
      | some rep =>
        exact ⟨replaceList sym rep.toList l, by simp only [deAnonLine, if_pos hn, hs, hl]⟩
  · exact ⟨l, by simp only [deAnonLine, if_neg hn]⟩

theorem lineStep_cases (numWords : Nat) (wlist : List (String × String))
    (st : Bool) (acc : List Triple) (line : String)
    (Hline : ∀ sym, searchWSym line.toList = some sym →
      (wlist.lookup (String.mk sym)).isSome = true) :
    (badLine numWords wlist st line = true ∧
      lineStep numWords wlist (st, acc) line = .error .malformed) ∨
    (badLine numWords wlist st line = false ∧
      ∃ acc', lineStep numWords wlist (st, acc) line =
        .ok (nextReading numWords wlist st line, acc')) := by
  rcases deAnonLine_ok numWords wlist line.toList Hline with ⟨l2, hde⟩
  by_cases hcond : ((st || containsSub beginMarker line.toList) &&
      (line.toList.head? == some '[')) = true
  · cases hshape : searchShape l2 with
    | none =>
      left
      constructor
      · simp only [badLine, hde, hcond, hshape, Option.isNone_none, Bool.and_true]
      · simp only [lineStep, hde, hcond, hshape, if_true]
    | some triple =>
      right
      constructor
      · simp only [badLine, hde, hcond, hshape, Option.isNone_some, Bool.and_false]
      · refine ⟨acc ++ [traceTriple triple.1 triple.2.1 (String.mk triple.2.2)], ?_⟩
        simp only [lineStep, nextReading, hde, hcond, hshape, if_true]
  · have hcond' : ((st || containsSub beginMarker line.toList) &&
        (line.toList.head? == some '[')) = false := by
      cases h : ((st || containsSub beginMarker line.toList) &&
        (line.toList.head? == some '['))
      · rfl
      · exact absurd h hcond
    right
    constructor
    · simp only [badLine, hcond', Bool.false_and]
    · refine ⟨acc, ?_⟩
      simp only [lineStep, nextReading, hcond', Bool.false_eq_true, if_false]

theorem parse_malformed_iff_aux (numWords : Nat) (wlist : List (String × String)) :
    ∀ (lines : List String) (st : Bool) (acc : List Triple),
      (∀ line ∈ lines, ∀ sym, searchWSym line.toList = some sym →
        (wlist.lookup (String.mk sym)).isSome = true) →
      ((lines.foldlM (lineStep numWords wlist) (st, acc) =
          Except.error ParseErr.malformed) ↔
        ∃ i, ∃ h : i < lines.length,
          badLine numWords wlist
            ((lines.take i).foldl (nextReading numWords wlist) st)
            (lines.get ⟨i, h⟩) = true) := by
  intro lines
  induction lines with
  | nil =>
    intro st acc _
    constructor
    · intro h
      cases h
    · rintro ⟨i, hi, _⟩
      exact absurd hi (by simp)
  | cons line rest ih =>
    intro st acc H
    have Hline := H line (List.mem_cons_self _ _)
    have Hrest : ∀ line' ∈ rest, ∀ sym, searchWSym line'.toList = some sym →
        (wlist.lookup (String.mk sym)).isSome = true :=
      fun l' h' => H l' (List.mem_cons_of_mem _ h')
    rcases lineStep_cases numWords wlist st acc line Hline with
      ⟨hbad, hstep⟩ | ⟨hgood, acc', hstep⟩
    · constructor
      · intro _
        exact ⟨0, by simp, hbad⟩
      · intro _
        show (line :: rest).foldlM (lineStep numWords wlist) (st, acc) = _
        rw [show (line :: rest).foldlM (lineStep numWords wlist) (st, acc) =
          (lineStep numWords wlist (st, acc) line >>= fun b =>
            rest.foldlM (lineStep numWords wlist) b) from rfl, hstep]
        rfl
    · rw [show (line :: rest).foldlM (lineStep numWords wlist) (st, acc) =
        (lineStep numWords wlist (st, acc) line >>= fun b =>
          rest.foldlM (lineStep numWords wlist) b) from rfl, hstep]
      rw [show ((Except.ok (nextReading numWords wlist st line, acc') :
          Except ParseErr (Bool × List Triple)) >>= fun b =>
          rest.foldlM (lineStep numWords wlist) b) =
        rest.foldlM (lineStep numWords wlist)
          (nextReading numWords wlist st line, acc') from rfl]
      rw [ih (nextReading numWords wlist st line) acc' Hrest]
      constructor
      · rintro ⟨i, hi, hb⟩
        refine ⟨i + 1, by simpa using Nat.succ_lt_succ hi, ?_⟩
        rw [List.take_succ_cons, List.foldl_cons]
        exact hb
      · rintro ⟨i, hi, hb⟩
        cases i with
        | zero =>
          have hb2 : badLine numWords wlist st line = true := hb
          rw [hgood] at hb2
          cases hb2
        | succ j =>
          refine ⟨j, by simpa using Nat.lt_of_succ_lt_succ hi, ?_⟩
          rw [List.take_succ_cons, List.foldl_cons] at hb
          exact hb

/-- C4: with every anonymized symbol in the log resolvable in the symbol
table (ruling out the separate dictionary-lookup failure), the parsing loop
fails with the malformed-trace-line condition iff some line, inside an
alignment region at the moment it is examined, begins with `[` yet fails
the frame-range/score/label pattern; lines outside regions are ignored, and
exhausting the input in either state returns the collected triples. -/
theorem c4_malformed_iff (numWords : Nat) (wlist : List (String × String))
    (lines : List String)
    (H : ∀ line ∈ lines, ∀ sym, searchWSym line.toList = some sym →
      (wlist.lookup (String.mk sym)).isSome = true) :
    parseLog numWords wlist lines = .error .malformed ↔
      ∃ i, ∃ h : i < lines.length,
        badLine numWords wlist (readingAfter numWords wlist (lines.take i))
          (lines.get ⟨i, h⟩) = true := by
  have haux := parse_malformed_iff_aux numWords wlist lines false [] H
  constructor
  · intro h
    apply haux.mp
    unfold parseLog at h
    cases hx : lines.foldlM (lineStep numWords wlist) (false, ([] : List Triple)) with
    | error e =>
      rw [hx] at h
      cases e
      · rfl
      · simp [Except.map] at h
    | ok st =>
      rw [hx] at h
      simp [Except.map] at h
  · intro h
    unfold parseLog
    rw [haux.mpr h]
    rfl

/-- Witness for C4 at a two-line log whose second line starts with `[` but
has no frame range. -/
theorem c4_malformed_iff_witness :
    parseLog 1 [] ["zz begin forced alignment", "[broken"] = .error .malformed := by
  apply (c4_malformed_iff 1 [] _ ?_).mpr
  · exact ⟨1, by norm_num, by decide⟩
  · intro line hline sym hsym
    rcases List.mem_cons.mp hline with rfl | hline
    · rw [show searchWSym ("zz begin forced alignment").toList = none from rfl] at hsym
      cases hsym
    rcases List.mem_cons.mp hline with rfl | hline
    · rw [show searchWSym ("[broken").toList = none from rfl] at hsym
      cases hsym
    · cases hline

end PySegmentKit
